import Mathlib

/-!
Verification of the state-sequence simulation core of `osl-dynamics`
(`osl_dynamics/simulation/_hmm.py` and `osl_dynamics/array_ops.py`).

Matrices are embedded as lists of rows over `ℚ` (the Python code computes with
floats; all the validated quantities here are exact finite decimals, so exact
rational arithmetic represents them faithfully).  Randomness is embedded by
passing the pre-generated draw streams of `numpy.random.Generator.choice`
explicitly: the generator itself is numpy internals outside this repository,
so it enters the development only through the abstract, deterministic
`RngModel` interface below.
-/

attribute [local semireducible] Rat.add Rat.mul Rat.inv Rat.sub Rat.ofScientific

namespace OslDynamics

/-- Row `k` of the identity matrix `np.eye n`, cast to `int`: a list of
length `n` with a single `1` at position `k`. -/
def stdBasisRow (n k : ℕ) : List ℕ :=
  (List.range n).map fun j => if j = k then 1 else 0

/-- Embedding of `osl_dynamics.array_ops.get_one_hot` on the path exercised by
the simulation code: `values` is a 1D integer array and `n_states` is passed
explicitly, so the function returns `np.eye(n_states)[values]` cast to `int`.
Indexing `np.eye(n_states)` with a label `v ≥ n_states` raises an
`IndexError`, modelled by `none`. -/
def get_one_hot (values : List ℕ) (n_states : ℕ) : Option (List (List ℕ)) :=
  values.mapM fun v => if v < n_states then some (stdBasisRow n_states v) else none

/-- `HMM.construct_sequence_trans_prob`: start from `np.zeros([n, n])`, set the
diagonal to `stay_prob` (`np.fill_diagonal`), set the superdiagonal entries
`(i, i + 1)` to `1 - stay_prob` (`np.fill_diagonal` on the `[:, 1:]` slice),
and finally set `trans_prob[-1, 0] = 1 - stay_prob`.  The last write wins, so
the wrap-around entry `(n - 1, 0)` is tested first. -/
def construct_sequence_trans_prob (stay_prob : ℚ) (n_states : ℕ) : List (List ℚ) :=
  (List.range n_states).map fun i => (List.range n_states).map fun j =>
    if i = n_states - 1 ∧ j = 0 then 1 - stay_prob
    else if j = i + 1 then 1 - stay_prob
    else if j = i then stay_prob
    else 0

/-- `HMM.construct_uniform_trans_prob`:
`np.ones((n, n)) * (1 - stay_prob) / (n - 1)` with the diagonal overwritten by
`stay_prob`. -/
def construct_uniform_trans_prob (stay_prob : ℚ) (n_states : ℕ) : List (List ℚ) :=
  (List.range n_states).map fun i => (List.range n_states).map fun j =>
    if j = i then stay_prob else (1 - stay_prob) / ((n_states : ℚ) - 1)

/-- The tolerance `1e-12` used when validating a transition matrix. -/
def tol : ℚ := 1 / 1000000000000

/-- `shape[1]` of a 2D numpy array represented as its list of rows (the rows
of an actual ndarray all have this common length). -/
def nCols (m : List (List ℚ)) : ℕ := (m.headD []).length

/-- Sum of column `j` of a 2D array (one entry of `trans_prob.sum(axis=0)`). -/
def colSum (m : List (List ℚ)) (j : ℕ) : ℚ := (m.map fun r => r.getD j 0).sum

/-- `trans_prob.T` for a rectangular 2D array. -/
def matT (m : List (List ℚ)) : List (List ℚ) :=
  (List.range (nCols m)).map fun j => m.map fun r => r.getD j 0

/-- A Python value appearing in a (possibly nested) Python list. -/
inductive PyVal where
  | num (q : ℚ)
  | lst (xs : List PyVal)

/-- Whether a Python value is acceptable as one entry of an ndarray shape:
an integer that is not negative. -/
def isShapeInt (v : PyVal) : Bool :=
  match v with
  | .num q => q.den == 1 && decide (0 ≤ q.num)
  | .lst _ => false

/-- The dimension described by one shape entry. -/
def shapeVal (v : PyVal) : ℕ :=
  match v with
  | .num q => q.num.toNat
  | .lst _ => 0

/-- Embedding of the low-level constructor `np.ndarray(arg)` as called by
`HMM.__init__` on a Python list: the first positional argument of
`np.ndarray` is the SHAPE of a new, uninitialized array, not its data.  The
argument must be a flat sequence of nonnegative integers; anything else — in
particular a nested list of matrix rows — raises a `TypeError`. -/
def npNdarrayShape (xs : List PyVal) : Except String (List ℕ) :=
  if xs.all isShapeInt then .ok (xs.map shapeVal)
  else .error "TypeError: ndarray shape argument must be a sequence of nonnegative integers."

/-- The `trans_prob` argument of `HMM.__init__`: a 2D numpy array, a Python
list, a string, or `None`. -/
inductive TransProbArg where
  | arr (m : List (List ℚ))
  | pylist (xs : List PyVal)
  | str (s : String)
  | null

/-- Result of the transition-matrix part of `HMM.__init__`: either a fully
determined stored matrix, or an array whose contents came from uninitialized
memory (`np.ndarray(shape)` with a nonempty flat integer shape), in which case
the row-sum validation outcome is not determined by the inputs and is not
modelled further. -/
inductive InitTransRes where
  | stored (m : List (List ℚ))
  | unspecified (shape : List ℕ)
deriving DecidableEq

/-- The validation of an explicit 2D transition matrix in `HMM.__init__`
(lines 53–76): square check, then the row sums are compared with `1` (a
deviation greater than `1e-12` in any row fails); if the rows fail but every
column sum is strictly within `1e-12` of `1`, the transpose is taken (with a
warning); otherwise a `ValueError` is raised.  The `ndim != 2` check is not
represented because this embedding of ndarrays is 2D by construction. -/
def validateTransMatrix (m : List (List ℚ)) : Except String InitTransRes :=
  if m.length ≠ nCols m then .error "trans_prob must be a square matrix."
  else if ∃ r ∈ m, tol < |r.sum - 1| then
    if ∀ j ∈ List.range (nCols m), |colSum m j - 1| < tol then
      .ok (.stored (matT m))
    else .error "Rows of trans_prob must sum to 1."
  else .ok (.stored m)

/-- Embedding of the transition-matrix construction of `HMM.__init__`
(lines 50–116).  A Python list is first passed to `np.ndarray` (as a shape
argument); an ndarray is validated by `validateTransMatrix`; a string is
checked against `sequence` and `uniform` BEFORE the `n_states == 1` special
case is examined; `None` is accepted only together with `n_states == 1`, and
otherwise `self.trans_prob` is never assigned, so reading
`self.trans_prob.shape[0]` on line 116 raises an `AttributeError`.  An
uninitialized `np.ndarray(shape)` with a 2D square nonempty shape reaches the
row-sum validation with indeterminate contents, returned as `unspecified`;
with a 2D shape `(0, 0)` every validation passes vacuously and the empty
array is stored. -/
def hmmInitTrans (trans_prob : TransProbArg) (stay_prob : Option ℚ)
    (n_states : Option ℕ) : Except String InitTransRes :=
  match trans_prob with
  | .pylist xs =>
    match npNdarrayShape xs with
    | .error e => .error e
    | .ok shape =>
      if shape.length ≠ 2 then .error "trans_prob must be a 2D array."
      else if shape.getD 0 0 ≠ shape.getD 1 0 then
        .error "trans_prob must be a square matrix."
      else if shape.getD 0 0 = 0 then .ok (.stored [])
      else .ok (.unspecified shape)
  | .arr m => validateTransMatrix m
  | .str s =>
    if ¬ (s = "sequence" ∨ s = "uniform") then
      .error "trans_prob must be a np.array, sequence or uniform."
    else if n_states = some 1 then .ok (.stored [[1]])
    else if s = "sequence" then
      match stay_prob, n_states with
      | some p, some n => .ok (.stored (construct_sequence_trans_prob p n))
      | _, _ => .error "If trans_prob is sequence, stay_prob and n_states must be passed."
    else
      match n_states with
      | some n =>
        .ok (.stored (construct_uniform_trans_prob (stay_prob.getD (1 / (n : ℚ))) n))
      | none => .error "If trans_prob is uniform, n_states must be passed."
  | .null =>
    if n_states = some 1 then .ok (.stored [[1]])
    else .error "AttributeError: trans_prob was never set."

instance {ε α : Type} [DecidableEq ε] [DecidableEq α] : DecidableEq (Except ε α)
  | .ok a, .ok b => decidable_of_iff (a = b) ⟨congrArg _, Except.ok.inj⟩
  | .error a, .error b => decidable_of_iff (a = b) ⟨congrArg _, Except.error.inj⟩
  | .ok _, .error _ => isFalse fun h => Except.noConfusion h
  | .error _, .ok _ => isFalse fun h => Except.noConfusion h

/-- One iteration of the sampling loop in `HMM.generate_states`:
`states[sample] = next(rands[states[sample - 1]])`.  The machine state is the
previous label together with the position of each per-state iterator over the
pre-generated draws; an exhausted iterator (`StopIteration`) is `none`. -/
def mcNext (streams : ℕ → List ℕ) : ℕ × (ℕ → ℕ) → Option (ℕ × (ℕ → ℕ))
  | (cur, pos) =>
    match (streams cur)[pos cur]? with
    | none => none
    | some v => some (v, fun i => if i = cur then pos i + 1 else pos i)

/-- The sampling loop of `HMM.generate_states` after `t` iterations: the label
of sample `t` together with the iterator positions.  Sample `0` carries label
`0` because `states = np.zeros(n_samples, int)` and the loop starts at
sample `1`. -/
def mcRun (streams : ℕ → List ℕ) : ℕ → Option (ℕ × (ℕ → ℕ))
  | 0 => some (0, fun _ => 0)
  | t + 1 => (mcRun streams t).bind (mcNext streams)

/-- The label of sample `t` (with a junk default if sampling already failed
before `t`). -/
def mcLabel (streams : ℕ → List ℕ) (t : ℕ) : ℕ :=
  ((mcRun streams t).map Prod.fst).getD 0

/-- Embedding of `HMM.generate_states` (lines 136–145).  `streams i` is the
pre-generated draw array
`self._rng.choice(self.n_states, size=n_samples, p=self.trans_prob[i])` for
source state `i`; the loop consumes them through per-state iterators and the
resulting integer labels are one-hot encoded with `n_states` columns. -/
def generate_states (streams : ℕ → List ℕ) (n_states n_samples : ℕ) :
    Option (List (List ℕ)) :=
  ((List.range n_samples).mapM fun t => (mcRun streams t).map Prod.fst).bind
    fun states => get_one_hot states n_states

/-- Modelled from the spec: `np.random.default_rng` and
`numpy.random.Generator.choice` are numpy internals, not code of this
repository.  The spec requires only that all randomness flows through a
per-chain seeded generator instance, deterministic as a function of its seed:
`init` maps a seed to the initial generator state and `choice g n size p`
draws `size` values in `[0, n)` with weights `p`, advancing the state.
(Construction with seed `None` draws fresh OS entropy and is outside this
deterministic model.) -/
structure RngModel where
  init : Option ℤ → ℕ
  choice : ℕ → ℕ → ℕ → List ℚ → List ℕ × ℕ

/-- The guarantees of `Generator.choice(n, size=size, p=p)`: it returns
exactly `size` draws, each a label in `[0, n)`. -/
def GoodRng (rm : RngModel) (n : ℕ) : Prop :=
  ∀ g size p, ((rm.choice g n size p).1.length = size) ∧
    ∀ v ∈ (rm.choice g n size p).1, v < n

/-- The list comprehension of `HMM.generate_states` that pre-generates one
draw array per source state: one `choice` call per row of `trans_prob`, in
row order, threading the generator state. -/
def mkStreamsList (rm : RngModel) (g : ℕ) (rows : List (List ℚ))
    (n size : ℕ) : List (List ℕ) × ℕ :=
  match rows with
  | [] => ([], g)
  | r :: rs =>
    let c := rm.choice g n size r
    let rest := mkStreamsList rm c.2 rs n size
    (c.1 :: rest.1, rest.2)

/-- The state held by a constructed `HMM` object: the stored transition
matrix, `self.n_states = self.trans_prob.shape[0]`, and the private generator
`self._rng`. -/
structure HMMModel where
  trans_prob : List (List ℚ)
  n_states : ℕ
  rngState : ℕ
deriving DecidableEq

/-- `HMM.__init__`: build and validate the transition matrix, infer
`n_states` from its shape, and set up the private generator
`np.random.default_rng(random_seed)`.  A run that would continue with an
array of uninitialized memory is not modelled further. -/
def hmmNew (rm : RngModel) (trans_prob : TransProbArg) (stay_prob : Option ℚ)
    (n_states : Option ℕ) (random_seed : Option ℤ) : Except String HMMModel :=
  match hmmInitTrans trans_prob stay_prob n_states with
  | .error e => .error e
  | .ok (.stored m) => .ok ⟨m, m.length, rm.init random_seed⟩
  | .ok (.unspecified _) => .error "uninitialized ndarray contents are not modelled"

/-- A call of `generate_states` on a constructed `HMM` object: pre-generate
the per-state draw arrays from the private generator (advancing it), then run
the sampling loop.  Returns the one-hot array together with the object whose
generator has advanced (repeated calls continue the stream). -/
def hmmGenerateStatesRM (rm : RngModel) (h : HMMModel) (n_samples : ℕ) :
    Option (List (List ℕ)) × HMMModel :=
  let sl := mkStreamsList rm h.rngState h.trans_prob h.n_states n_samples
  (generate_states (fun i => sl.1.getD i []) h.n_states n_samples,
    { h with rngState := sl.2 })

/-- `np.argwhere(top_level_stc[:, i] == 1)[:, 0]`: the ascending list of
sample indices at which column `i` of the top-level one-hot array equals
`1`. -/
def activeIndices (topStc : List (List ℕ)) (i : ℕ) : List ℕ :=
  (List.range topStc.length).filter fun t => (topStc.getD t []).getD i 0 == 1

/-- The fancy assignment `stc[time_points_active] = vals`: write `vals[j]` to
row `time_points_active[j]` for each `j` in turn. -/
def writeRows : List (Option (List ℕ)) → List ℕ → List (List ℕ) →
    List (Option (List ℕ))
  | stc, t :: ts, v :: vs => writeRows (stc.set t (some v)) ts vs
  | stc, _, _ => stc

/-- One iteration of the loop over the bottom-level chains:
`time_points_active = np.argwhere(top_level_stc[:, i] == 1)[:, 0]` and
`stc[time_points_active] = bottom_level_hmms[i].generate_states(n_samples)[: len(time_points_active)]`. -/
def hierStep (n_samples : ℕ) (topStc : List (List ℕ))
    (bottomGen : ℕ → ℕ → Option (List (List ℕ)))
    (stc : List (Option (List ℕ))) (i : ℕ) : Option (List (Option (List ℕ))) := do
  let act := activeIndices topStc i
  let b ← bottomGen i n_samples
  pure (writeRows stc act (b.take act.length))

/-- Embedding of `HierarchicalHMM_MVN.generate_states` (lines 568–581).
`topGen len` is `self.top_level_hmm.generate_states(len)` (an `HMM` or `HSMM`
object) and `bottomGen i len` is
`self.bottom_level_hmms[i].generate_states(len)`; `K` is
`self.n_bottom_level_hmms`.  `stc = np.empty([n_samples, n_states])` starts
with every row uninitialized (`none`); for each bottom chain `i` in turn the
code asks chain `i` for a FULL `n_samples`-length sequence and copies only its
first `len(time_points_active)` rows into the rows where the top level chose
label `i`. -/
def hierGenerateStates (n_samples K : ℕ) (topGen : ℕ → Option (List (List ℕ)))
    (bottomGen : ℕ → ℕ → Option (List (List ℕ))) :
    Option (List (Option (List ℕ))) := do
  let topStc ← topGen n_samples
  (List.range K).foldlM (hierStep n_samples topStc bottomGen)
    (List.replicate n_samples (none : Option (List ℕ)))

/-- Embedding of the state-time-course part of `MS_HMM_MVN.__init__`
(lines 377–399): two `HMM` objects are built over the SAME `trans_prob`,
`stay_prob` and `n_states`, seeded with `random_seed + 1` and
`random_seed + 2`; each generates a full one-hot sequence and the two are
stacked as `np.array([alpha, gamma])`. -/
def msStateTimeCourse (rm : RngModel) (trans_prob : TransProbArg)
    (stay_prob : Option ℚ) (n_states : ℕ) (random_seed : Option ℤ)
    (n_samples : ℕ) : Except String (List (Option (List (List ℕ)))) := do
  let alpha_hmm ← hmmNew rm trans_prob stay_prob (some n_states)
    (random_seed.map (· + 1))
  let gamma_hmm ← hmmNew rm trans_prob stay_prob (some n_states)
    (random_seed.map (· + 2))
  let alpha := (hmmGenerateStatesRM rm alpha_hmm n_samples).1
  let gamma := (hmmGenerateStatesRM rm gamma_hmm n_samples).1
  pure [alpha, gamma]

/-! ## Helper lemmas -/

theorem getD_map_range {α : Type} (f : ℕ → α) (d : α) {n i : ℕ} (h : i < n) :
    ((List.range n).map f).getD i d = f i := by
  rw [List.getD_eq_getElem?_getD, List.getElem?_map, List.getElem?_range h]
  rfl

theorem sum_map_range_eq_of_eq (f : ℕ → ℚ) (s : ℚ) :
    ∀ n, (∀ j, j < n → f j = s) → ((List.range n).map f).sum = n * s := by
  intro n
  induction n with
  | zero => intro _; simp
  | succ n ih =>
    intro h
    rw [List.range_succ, List.map_append, List.sum_append]
    rw [ih fun j hj => h j (Nat.lt_succ_of_lt hj)]
    simp [h n (Nat.lt_succ_self n)]
    ring

theorem sum_map_range_ite (p s : ℚ) :
    ∀ n i, i < n →
      (((List.range n).map fun j => if j = i then p else s)).sum
        = p + ((n : ℚ) - 1) * s := by
  intro n
  induction n with
  | zero => omega
  | succ n ih =>
    intro i hi
    rw [List.range_succ, List.map_append, List.sum_append]
    rcases Nat.lt_succ_iff_lt_or_eq.mp hi with h | h
    · rw [ih i h]
      have hn : n ≠ i := Nat.ne_of_gt h
      simp [hn]
      ring
    · subst h
      rw [sum_map_range_eq_of_eq _ s _ fun j hj => if_neg (Nat.ne_of_lt hj)]
      simp
      ring

/-! ## Claims about transition-matrix construction -/

/-- C5: building with spec `uniform` and `n_states = n ≥ 2` yields the matrix
with the stay probability `p` on the diagonal and `(1 - p) / (n - 1)` in every
off-diagonal entry, so every row sums to `1`; when `stay_prob` is not
supplied, `p` defaults to `1 / n`. -/
theorem uniform_trans_prob_spec (n : ℕ) (p : ℚ) (hn : 2 ≤ n) :
    hmmInitTrans (.str "uniform") (some p) (some n) =
      .ok (.stored (construct_uniform_trans_prob p n)) ∧
    hmmInitTrans (.str "uniform") none (some n) =
      .ok (.stored (construct_uniform_trans_prob (1 / (n : ℚ)) n)) ∧
    (∀ i, i < n →
      ((construct_uniform_trans_prob p n).getD i []).getD i 0 = p) ∧
    (∀ i j, i < n → j < n → i ≠ j →
      ((construct_uniform_trans_prob p n).getD i []).getD j 0
        = (1 - p) / ((n : ℚ) - 1)) ∧
    (∀ row ∈ construct_uniform_trans_prob p n, row.sum = 1) := by
  have hne : n ≠ 1 := by omega
  refine ⟨by simp [hmmInitTrans, hne], by simp [hmmInitTrans, hne], ?_, ?_, ?_⟩
  · intro i hi
    rw [construct_uniform_trans_prob, getD_map_range _ _ hi, getD_map_range _ _ hi]
    simp
  · intro i j hi hj hij
    rw [construct_uniform_trans_prob, getD_map_range _ _ hi, getD_map_range _ _ hj]
    simp [Ne.symm hij]
  · intro row hrow
    rw [construct_uniform_trans_prob] at hrow
    obtain ⟨i, hi, rfl⟩ := List.mem_map.mp hrow
    rw [List.mem_range] at hi
    have hcast : (1 : ℚ) ≤ (n : ℚ) - 1 := by
      have : (2 : ℚ) ≤ (n : ℚ) := by exact_mod_cast hn
      linarith
    have hne0 : (n : ℚ) - 1 ≠ 0 := by linarith
    rw [sum_map_range_ite _ _ _ _ hi, mul_div_cancel₀ _ hne0]
    ring

/-- Witness for C5 at `n = 3`, `p = 9/10`. -/
theorem uniform_trans_prob_spec_witness :
    hmmInitTrans (.str "uniform") (some (9 / 10)) (some 3) =
      .ok (.stored (construct_uniform_trans_prob (9 / 10) 3)) ∧
    hmmInitTrans (.str "uniform") none (some 3) =
      .ok (.stored (construct_uniform_trans_prob (1 / (3 : ℚ)) 3)) ∧
    (∀ i, i < 3 →
      ((construct_uniform_trans_prob (9 / 10) 3).getD i []).getD i 0 = 9 / 10) ∧
    (∀ i j, i < 3 → j < 3 → i ≠ j →
      ((construct_uniform_trans_prob (9 / 10) 3).getD i []).getD j 0
        = (1 - 9 / 10) / ((3 : ℚ) - 1)) ∧
    (∀ row ∈ construct_uniform_trans_prob (9 / 10) 3, row.sum = 1) :=
  uniform_trans_prob_spec 3 (9 / 10) (by decide)

/-- C6: building with spec `sequence`, `stay_prob = p` and `n_states = n ≥ 2`
yields the cyclic matrix with `p` on the diagonal, `1 - p` at `(i, (i+1) % n)`
(including the wrap-around entry `(n-1, 0)`), and `0` everywhere else. -/
theorem sequence_trans_prob_spec (n : ℕ) (p : ℚ) (hn : 2 ≤ n) :
    hmmInitTrans (.str "sequence") (some p) (some n) =
      .ok (.stored (construct_sequence_trans_prob p n)) ∧
    (∀ i, i < n →
      ((construct_sequence_trans_prob p n).getD i []).getD i 0 = p) ∧
    (∀ i, i < n →
      ((construct_sequence_trans_prob p n).getD i []).getD ((i + 1) % n) 0
        = 1 - p) ∧
    (∀ i j, i < n → j < n → j ≠ i → j ≠ (i + 1) % n →
      ((construct_sequence_trans_prob p n).getD i []).getD j 0 = 0) := by
  have hne : n ≠ 1 := by omega
  refine ⟨by simp [hmmInitTrans, hne], ?_, ?_, ?_⟩
  · intro i hi
    rw [construct_sequence_trans_prob, getD_map_range _ _ hi, getD_map_range _ _ hi]
    have h1 : ¬ (i = n - 1 ∧ i = 0) := by omega
    have h2 : ¬ (i = i + 1) := by omega
    simp [h1, h2]
  · intro i hi
    rcases Nat.lt_or_ge i (n - 1) with h | h
    · have hj : (i + 1) % n = i + 1 := Nat.mod_eq_of_lt (by omega)
      have hjlt : i + 1 < n := by omega
      rw [construct_sequence_trans_prob, getD_map_range _ _ hi, hj,
        getD_map_range _ _ hjlt]
      have h1 : ¬ (i = n - 1 ∧ i + 1 = 0) := by omega
      simp [h1]
    · have hieq : i = n - 1 := by omega
      have hj : (i + 1) % n = 0 := by
        rw [hieq]
        have : n - 1 + 1 = n := by omega
        rw [this, Nat.mod_self]
      have h0 : (0 : ℕ) < n := by omega
      rw [construct_sequence_trans_prob, getD_map_range _ _ hi, hj,
        getD_map_range _ _ h0]
      simp [hieq]
  · intro i j hi hj hji hjnext
    rw [construct_sequence_trans_prob, getD_map_range _ _ hi, getD_map_range _ _ hj]
    have h1 : ¬ (i = n - 1 ∧ j = 0) := by
      rintro ⟨rfl, rfl⟩
      apply hjnext
      have : n - 1 + 1 = n := by omega
      rw [this, Nat.mod_self]
    have h2 : ¬ (j = i + 1) := by
      intro hji1
      apply hjnext
      rw [Nat.mod_eq_of_lt (by omega), hji1]
    simp [h1, h2, hji]

/-- Witness for C6 at `n = 3`, `p = 4/5`. -/
theorem sequence_trans_prob_spec_witness :
    hmmInitTrans (.str "sequence") (some (4 / 5)) (some 3) =
      .ok (.stored (construct_sequence_trans_prob (4 / 5) 3)) ∧
    (∀ i, i < 3 →
      ((construct_sequence_trans_prob (4 / 5) 3).getD i []).getD i 0 = 4 / 5) ∧
    (∀ i, i < 3 →
      ((construct_sequence_trans_prob (4 / 5) 3).getD i []).getD ((i + 1) % 3) 0
        = 1 - 4 / 5) ∧
    (∀ i j, i < 3 → j < 3 → j ≠ i → j ≠ (i + 1) % 3 →
      ((construct_sequence_trans_prob (4 / 5) 3).getD i []).getD j 0 = 0) :=
  sequence_trans_prob_spec 3 (4 / 5) (by decide)

/-- C3, counterexample: with `n_states = 1`, an unrecognized string raises a
`ValueError` (the string validation runs before the `n_states == 1` special
case), and an explicit matrix is stored unchanged — in neither case is the
`1 × 1` matrix `[[1]]` produced. -/
theorem n_states_one_counterexample :
    hmmInitTrans (.str "gaussian") none (some 1) =
      .error "trans_prob must be a np.array, sequence or uniform." ∧
    hmmInitTrans (.arr [[(1 : ℚ), 0], [0, 1]]) none (some 1) =
      .ok (.stored [[(1 : ℚ), 0], [0, 1]]) ∧
    ([[(1 : ℚ), 0], [0, 1]] : List (List ℚ)) ≠ [[1]] :=
  ⟨by decide, by decide, by decide⟩

/-- C3, amended: for `trans_prob` equal to the string `sequence` or `uniform`
(the recognized named specs) passed together with `n_states = 1`, construction
succeeds and stores the `1 × 1` matrix `[[1]]`, for any `stay_prob`; an
unrecognized string fails validation before the special case is reached, and
an explicit matrix is validated and stored on its own, ignoring `n_states`. -/
theorem n_states_one_named_spec (s : String) (stay : Option ℚ)
    (hs : s = "sequence" ∨ s = "uniform") :
    hmmInitTrans (.str s) stay (some 1) = .ok (.stored [[1]]) := by
  rcases hs with h | h <;> subst h <;> simp [hmmInitTrans]

/-- Witness for the amended C3 at `s = "sequence"`. -/
theorem n_states_one_named_spec_witness :
    hmmInitTrans (.str "sequence") none (some 1) = .ok (.stored [[1]]) :=
  n_states_one_named_spec "sequence" none (Or.inl rfl)

/-- C4: an explicit square matrix whose rows all sum to `1` within `1e-12` is
stored as-is; if some row sum deviates by more than `1e-12` but every column
sum is within the tolerance of `1`, the transpose is stored (with a warning)
and construction succeeds; if neither orientation satisfies the tolerance,
construction raises an invalid-parameter `ValueError` and no HMM is
produced. -/
theorem explicit_trans_prob_spec (m : List (List ℚ)) (stay : Option ℚ)
    (ns : Option ℕ) (hsq : m.length = nCols m)
    (_hrect : ∀ r ∈ m, r.length = nCols m) :
    ((∀ r ∈ m, |r.sum - 1| ≤ tol) →
      hmmInitTrans (.arr m) stay ns = .ok (.stored m)) ∧
    ((∃ r ∈ m, tol < |r.sum - 1|) →
      (∀ j, j < nCols m → |colSum m j - 1| < tol) →
      hmmInitTrans (.arr m) stay ns = .ok (.stored (matT m))) ∧
    ((∃ r ∈ m, tol < |r.sum - 1|) →
      (∃ j, j < nCols m ∧ tol ≤ |colSum m j - 1|) →
      hmmInitTrans (.arr m) stay ns =
        .error "Rows of trans_prob must sum to 1.") := by
  refine ⟨?_, ?_, ?_⟩
  · intro hrows
    have hno : ¬ ∃ r ∈ m, tol < |r.sum - 1| := by
      rintro ⟨r, hr, hlt⟩
      exact absurd (hrows r hr) (not_le.mpr hlt)
    simp [hmmInitTrans, validateTransMatrix, hsq, hno]
  · intro hbad hcols
    have hall : ∀ j ∈ List.range (nCols m), |colSum m j - 1| < tol :=
      fun j hj => hcols j (List.mem_range.mp hj)
    simp [hmmInitTrans, validateTransMatrix, hsq, hbad, hall]
    exact hcols
  · intro hbad hcolbad
    have hnall : ¬ ∀ j ∈ List.range (nCols m), |colSum m j - 1| < tol := by
      intro hall
      obtain ⟨j, hj, hge⟩ := hcolbad
      exact absurd (hall j (List.mem_range.mpr hj)) (not_lt.mpr hge)
    simp [hmmInitTrans, validateTransMatrix, hsq, hbad, hnall]
    exact hcolbad

/-- Witness for C4 at a matrix whose rows fail but whose columns pass, so the
transpose is stored. -/
theorem explicit_trans_prob_spec_witness :
    ((∀ r ∈ ([[(1 : ℚ), 1], [0, 0]] : List (List ℚ)), |r.sum - 1| ≤ tol) →
      hmmInitTrans (.arr [[(1 : ℚ), 1], [0, 0]]) none none =
        .ok (.stored [[(1 : ℚ), 1], [0, 0]])) ∧
    ((∃ r ∈ ([[(1 : ℚ), 1], [0, 0]] : List (List ℚ)), tol < |r.sum - 1|) →
      (∀ j, j < nCols [[(1 : ℚ), 1], [0, 0]] →
        |colSum [[(1 : ℚ), 1], [0, 0]] j - 1| < tol) →
      hmmInitTrans (.arr [[(1 : ℚ), 1], [0, 0]]) none none =
        .ok (.stored (matT [[(1 : ℚ), 1], [0, 0]]))) ∧
    ((∃ r ∈ ([[(1 : ℚ), 1], [0, 0]] : List (List ℚ)), tol < |r.sum - 1|) →
      (∃ j, j < nCols [[(1 : ℚ), 1], [0, 0]] ∧
        tol ≤ |colSum [[(1 : ℚ), 1], [0, 0]] j - 1|) →
      hmmInitTrans (.arr [[(1 : ℚ), 1], [0, 0]]) none none =
        .error "Rows of trans_prob must sum to 1.") :=
  explicit_trans_prob_spec [[(1 : ℚ), 1], [0, 0]] none none (by decide) (by decide)

/-- C10: a nested Python list passed as `trans_prob` reaches
`np.ndarray(trans_prob)`, which reads its argument as a SHAPE; a nested list
is not a flat sequence of integers, so a `TypeError` is raised and no
transition matrix — in particular none whose entries equal the list — is ever
stored, even when the list describes a valid row-stochastic matrix. -/
theorem list_trans_prob_never_stored (xs : List PyVal) (stay : Option ℚ)
    (ns : Option ℕ) (ys : List PyVal) (hy : PyVal.lst ys ∈ xs) :
    hmmInitTrans (.pylist xs) stay ns =
      .error "TypeError: ndarray shape argument must be a sequence of nonnegative integers." ∧
    ∀ r : InitTransRes, hmmInitTrans (.pylist xs) stay ns ≠ .ok r := by
  have hfalse : xs.all isShapeInt = false := by
    rw [List.all_eq_false]
    exact ⟨PyVal.lst ys, hy, by simp [isShapeInt]⟩
  have h1 : hmmInitTrans (.pylist xs) stay ns =
      .error "TypeError: ndarray shape argument must be a sequence of nonnegative integers." := by
    simp [hmmInitTrans, npNdarrayShape, hfalse]
  exact ⟨h1, fun r hr => by rw [h1] at hr; exact Except.noConfusion hr⟩

/-- Witness for C10 at the nested list `[[9/10, 1/10], [1/10, 9/10]]`, a valid
row-stochastic matrix. -/
theorem list_trans_prob_never_stored_witness :
    hmmInitTrans
        (.pylist [.lst [.num (9 / 10), .num (1 / 10)],
                  .lst [.num (1 / 10), .num (9 / 10)]]) none none =
      .error "TypeError: ndarray shape argument must be a sequence of nonnegative integers." ∧
    ∀ r : InitTransRes,
      hmmInitTrans
          (.pylist [.lst [.num (9 / 10), .num (1 / 10)],
                    .lst [.num (1 / 10), .num (9 / 10)]]) none none ≠ .ok r :=
  list_trans_prob_never_stored _ none none [.num (1 / 10), .num (9 / 10)]
    (List.mem_cons_of_mem _ (List.mem_cons_self _ _))

/-! ## The Markov sampling loop -/

theorem stdBasisRow_length (n k : ℕ) : (stdBasisRow n k).length = n := by
  simp [stdBasisRow]

theorem count_one_map_ite : ∀ n k : ℕ,
    (((List.range n).map fun j => if j = k then 1 else 0).count 1)
      = if k < n then 1 else 0 := by
  intro n k
  induction n with
  | zero => simp
  | succ n ih =>
    rw [List.range_succ, List.map_append, List.count_append, ih]
    rcases Nat.lt_trichotomy k n with h | h | h
    · rw [if_pos h, if_pos (by omega)]
      have hnk : n ≠ k := by omega
      simp [hnk]
    · subst h
      rw [if_neg (by omega), if_pos (by omega)]
      simp
    · rw [if_neg (by omega), if_neg (by omega)]
      have hnk : n ≠ k := by omega
      simp [hnk]

theorem count_one_stdBasisRow (n k : ℕ) (h : k < n) :
    (stdBasisRow n k).count 1 = 1 := by
  rw [stdBasisRow, count_one_map_ite, if_pos h]

theorem mem_stdBasisRow (n k x : ℕ) (hx : x ∈ stdBasisRow n k) : x = 0 ∨ x = 1 := by
  rw [stdBasisRow] at hx
  obtain ⟨j, _, rfl⟩ := List.mem_map.mp hx
  by_cases hj : j = k <;> simp [hj]

theorem mapM_option_eq_map {α β : Type} (f : α → Option β) (g : α → β) :
    ∀ l : List α, (∀ a ∈ l, f a = some (g a)) → l.mapM f = some (l.map g) := by
  intro l
  induction l with
  | nil => intro _; rfl
  | cons a l ih =>
    intro h
    rw [List.mapM_cons, h a (List.mem_cons_self a l),
      ih fun b hb => h b (List.mem_cons_of_mem a hb)]
    rfl

/-- The invariant of the sampling loop: after `t < n_samples` iterations the
loop has not failed, the current label is a valid state, and the iterator of
stream `i` stands exactly at the number of previous samples whose label was
`i` (each step `u + 1` consumes one draw from stream `label u`). -/
theorem mcRun_spec (streams : ℕ → List ℕ) (n n_samples : ℕ)
    (hn : 1 ≤ n) (Hlen : ∀ i, i < n → (streams i).length = n_samples)
    (Hval : ∀ i, i < n → ∀ v ∈ streams i, v < n) :
    ∀ t, t < n_samples →
      ∃ pos, mcRun streams t = some (mcLabel streams t, pos) ∧
        mcLabel streams t < n ∧
        ∀ i, pos i = ((List.range t).map (mcLabel streams)).count i := by
  intro t
  induction t with
  | zero =>
    intro _
    exact ⟨fun _ => 0, rfl, hn, fun i => by simp⟩
  | succ t ih =>
    intro ht
    obtain ⟨pos, hrun, hlt, hpos⟩ := ih (Nat.lt_of_succ_lt ht)
    have hcnt : pos (mcLabel streams t) < (streams (mcLabel streams t)).length := by
      rw [Hlen _ hlt, hpos]
      calc ((List.range t).map (mcLabel streams)).count (mcLabel streams t)
          ≤ ((List.range t).map (mcLabel streams)).length :=
            List.count_le_length _ _
        _ = t := by simp
        _ < n_samples := Nat.lt_of_succ_lt ht
    have hv : (streams (mcLabel streams t))[pos (mcLabel streams t)]? =
        some ((streams (mcLabel streams t)).get ⟨_, hcnt⟩) := by
      rw [List.getElem?_eq_getElem hcnt]
      rfl
    have hstep : mcRun streams (t + 1) =
        some ((streams (mcLabel streams t)).get ⟨_, hcnt⟩,
          fun i => if i = mcLabel streams t then pos i + 1 else pos i) := by
      rw [mcRun, hrun, Option.some_bind, mcNext, hv]
    have hlab : mcLabel streams (t + 1) =
        (streams (mcLabel streams t)).get ⟨_, hcnt⟩ := by
      rw [mcLabel, hstep]
      rfl
    have hmem : (streams (mcLabel streams t)).get ⟨_, hcnt⟩ ∈
        streams (mcLabel streams t) := List.get_mem _ _ hcnt
    refine ⟨_, by rw [hstep, hlab], by rw [hlab]; exact Hval _ hlt _ hmem, ?_⟩
    intro i
    rw [List.range_succ, List.map_append, List.count_append]
    simp only [List.map_cons, List.map_nil]
    by_cases hiL : i = mcLabel streams t
    · rw [if_pos hiL, hpos i, hiL]
      have h1 : List.count (mcLabel streams t) [mcLabel streams t] = 1 := by simp
      rw [h1]
    · rw [if_neg hiL, hpos i]
      have h0 : List.count i [mcLabel streams t] = 0 :=
        List.count_eq_zero.mpr (by simp only [List.mem_singleton]; exact hiL)
      rw [h0]
      omega

/-- Each sample after the first is the next unconsumed value of the draw
stream belonging to the previous sample's label: the iterator position is the
number of earlier samples with that same label. -/
theorem mcLabel_succ (streams : ℕ → List ℕ) (n n_samples : ℕ)
    (hn : 1 ≤ n) (Hlen : ∀ i, i < n → (streams i).length = n_samples)
    (Hval : ∀ i, i < n → ∀ v ∈ streams i, v < n)
    (t : ℕ) (ht : t + 1 ≤ n_samples) :
    mcLabel streams (t + 1) =
      (streams (mcLabel streams t)).getD
        (((List.range t).map (mcLabel streams)).count (mcLabel streams t)) 0 := by
  obtain ⟨pos, hrun, hlt, hpos⟩ :=
    mcRun_spec streams n n_samples hn Hlen Hval t (by omega)
  have hcnt : pos (mcLabel streams t) < (streams (mcLabel streams t)).length := by
    rw [Hlen _ hlt, hpos]
    calc ((List.range t).map (mcLabel streams)).count (mcLabel streams t)
        ≤ ((List.range t).map (mcLabel streams)).length := List.count_le_length _ _
      _ = t := by simp
      _ < n_samples := by omega
  have hv : (streams (mcLabel streams t))[pos (mcLabel streams t)]? =
      some ((streams (mcLabel streams t)).get ⟨_, hcnt⟩) := by
    rw [List.getElem?_eq_getElem hcnt]
    rfl
  have hstep : mcRun streams (t + 1) =
      some ((streams (mcLabel streams t)).get ⟨_, hcnt⟩,
        fun i => if i = mcLabel streams t then pos i + 1 else pos i) := by
    rw [mcRun, hrun, Option.some_bind, mcNext, hv]
  have hlab : mcLabel streams (t + 1) =
      (streams (mcLabel streams t)).get ⟨_, hcnt⟩ := by
    rw [mcLabel, hstep]
    rfl
  rw [hlab, ← hpos]
  rw [List.getD_eq_getElem _ _ hcnt]
  simp

/-- Closed form of `generate_states` under the guarantees of `choice`: it
succeeds and returns the one-hot encoding of the label sequence. -/
theorem generate_states_eq (streams : ℕ → List ℕ) (n n_samples : ℕ)
    (hn : 1 ≤ n) (Hlen : ∀ i, i < n → (streams i).length = n_samples)
    (Hval : ∀ i, i < n → ∀ v ∈ streams i, v < n) :
    generate_states streams n n_samples =
      some ((List.range n_samples).map fun t => stdBasisRow n (mcLabel streams t)) := by
  have hrun : ∀ t ∈ List.range n_samples,
      (mcRun streams t).map Prod.fst = some (mcLabel streams t) := by
    intro t ht
    obtain ⟨pos, hr, _, _⟩ :=
      mcRun_spec streams n n_samples hn Hlen Hval t (List.mem_range.mp ht)
    rw [hr]
    rfl
  have hlab : ∀ t, t < n_samples → mcLabel streams t < n := by
    intro t ht
    obtain ⟨_, _, h, _⟩ := mcRun_spec streams n n_samples hn Hlen Hval t ht
    exact h
  rw [generate_states, mapM_option_eq_map _ _ _ hrun, Option.some_bind,
    get_one_hot,
    mapM_option_eq_map _ (fun v => stdBasisRow n v) _ ?_, List.map_map]
  · rfl
  · intro v hv
    obtain ⟨t, ht, rfl⟩ := List.mem_map.mp hv
    rw [if_pos (hlab t (List.mem_range.mp ht))]

theorem sum_count_eq_length (l : List ℕ) (n : ℕ) (h : ∀ v ∈ l, v < n) :
    ∑ i ∈ Finset.range n, l.count i = l.length := by
  induction l with
  | nil => simp
  | cons a l ih =>
    have ha : a ∈ Finset.range n := Finset.mem_range.mpr (h a (List.mem_cons_self a l))
    simp only [List.count_cons, List.length_cons]
    rw [Finset.sum_add_distrib, ih fun v hv => h v (List.mem_cons_of_mem a hv)]
    have : ∀ i ∈ Finset.range n, (if a == i then 1 else 0) = if a = i then 1 else 0 := by
      intro i _
      by_cases hi : a = i <;> simp [hi]
    rw [Finset.sum_congr rfl this, Finset.sum_ite_eq (Finset.range n) a fun _ => 1,
      if_pos ha]

/-- C1: for every HMM built from a valid transition matrix with `n ≥ 1`
states and every `n_samples ≥ 1`, `generate_states` returns `n_samples` rows
with exactly `n_states` columns each (even when fewer labels are visited),
every row a unit basis vector (one entry `1`, the rest `0`); the label at
sample `0` is `0`; and for every `t ≥ 1` the label at `t` is the next
unconsumed value of the pre-generated draw stream belonging to the label at
`t - 1` (its iterator stands at the number of earlier samples with that same
label), i.e. each sample is drawn from the categorical distribution given by
row `states[t-1]` of the transition matrix. -/
theorem hmm_generate_states_spec (streams : ℕ → List ℕ) (n n_samples : ℕ)
    (hn : 1 ≤ n) (_hs : 1 ≤ n_samples)
    (Hlen : ∀ i, i < n → (streams i).length = n_samples)
    (Hval : ∀ i, i < n → ∀ v ∈ streams i, v < n) :
    ∃ M, generate_states streams n n_samples = some M ∧
      M.length = n_samples ∧
      (∀ row ∈ M, row.length = n ∧ row.count 1 = 1 ∧ ∀ x ∈ row, x = 0 ∨ x = 1) ∧
      (∀ t, t < n_samples → M.getD t [] = stdBasisRow n (mcLabel streams t)) ∧
      mcLabel streams 0 = 0 ∧
      (∀ t, t + 1 < n_samples →
        mcLabel streams (t + 1) =
          (streams (mcLabel streams t)).getD
            (((List.range t).map (mcLabel streams)).count (mcLabel streams t)) 0) := by
  refine ⟨_, generate_states_eq streams n n_samples hn Hlen Hval, by simp, ?_, ?_,
    rfl, ?_⟩
  · intro row hrow
    obtain ⟨t, ht, rfl⟩ := List.mem_map.mp hrow
    rw [List.mem_range] at ht
    obtain ⟨_, _, hlab, _⟩ := mcRun_spec streams n n_samples hn Hlen Hval t ht
    exact ⟨stdBasisRow_length _ _, count_one_stdBasisRow _ _ hlab,
      fun x hx => mem_stdBasisRow _ _ _ hx⟩
  · intro t ht
    exact getD_map_range _ _ ht
  · intro t ht
    exact mcLabel_succ streams n n_samples hn Hlen Hval t (by omega)

/-- Witness for C1: two states, three samples, streams `[1, 0, 1]`. -/
theorem hmm_generate_states_spec_witness :
    ∃ M, generate_states (fun _ => [1, 0, 1]) 2 3 = some M ∧
      M.length = 3 ∧
      (∀ row ∈ M, row.length = 2 ∧ row.count 1 = 1 ∧ ∀ x ∈ row, x = 0 ∨ x = 1) ∧
      (∀ t, t < 3 →
        M.getD t [] = stdBasisRow 2 (mcLabel (fun _ => [1, 0, 1]) t)) ∧
      mcLabel (fun _ => [1, 0, 1]) 0 = 0 ∧
      (∀ t, t + 1 < 3 →
        mcLabel (fun _ => [1, 0, 1]) (t + 1) =
          ((fun _ : ℕ => [1, 0, 1]) (mcLabel (fun _ => [1, 0, 1]) t)).getD
            (((List.range t).map (mcLabel (fun _ => [1, 0, 1]))).count
              (mcLabel (fun _ => [1, 0, 1]) t)) 0) :=
  hmm_generate_states_spec (fun _ => [1, 0, 1]) 2 3 (by decide) (by decide)
    (fun _ _ => rfl) (fun _ _ v hv => by simp at hv; omega)

/-- C9: `generate_states` never fails: each of the `n_states` pre-generated
per-state draw streams holds `n_samples` values while only `n_samples - 1`
draws in total are consumed across all streams (one per sample after the
first), so every iterator advance succeeds; and every sampled label lies in
`[0, n_states)`, so the one-hot row lookup into `np.eye(n_states)` is always
in bounds. -/
theorem hmm_generate_states_no_failure (streams : ℕ → List ℕ) (n n_samples : ℕ)
    (hn : 1 ≤ n) (hs : 1 ≤ n_samples)
    (Hlen : ∀ i, i < n → (streams i).length = n_samples)
    (Hval : ∀ i, i < n → ∀ v ∈ streams i, v < n) :
    ∃ M, generate_states streams n n_samples = some M ∧
    ∃ pos, mcRun streams (n_samples - 1) =
        some (mcLabel streams (n_samples - 1), pos) ∧
      (∑ i ∈ Finset.range n, pos i = n_samples - 1) ∧
      (∀ i, pos i ≤ n_samples - 1) ∧
      (∀ t, t < n_samples → mcLabel streams t < n) := by
  have hlab : ∀ t, t < n_samples → mcLabel streams t < n := by
    intro t ht
    obtain ⟨_, _, h, _⟩ := mcRun_spec streams n n_samples hn Hlen Hval t ht
    exact h
  obtain ⟨pos, hrun, _, hpos⟩ :=
    mcRun_spec streams n n_samples hn Hlen Hval (n_samples - 1) (by omega)
  have hlen : ((List.range (n_samples - 1)).map (mcLabel streams)).length
      = n_samples - 1 := by simp
  refine ⟨_, generate_states_eq streams n n_samples hn Hlen Hval,
    pos, hrun, ?_, ?_, hlab⟩
  · have hmem : ∀ v ∈ (List.range (n_samples - 1)).map (mcLabel streams), v < n := by
      intro v hv
      obtain ⟨t, ht, rfl⟩ := List.mem_map.mp hv
      exact hlab t (by rw [List.mem_range] at ht; omega)
    rw [Finset.sum_congr rfl fun i _ => hpos i,
      sum_count_eq_length _ n hmem, hlen]
  · intro i
    rw [hpos i]
    calc ((List.range (n_samples - 1)).map (mcLabel streams)).count i
        ≤ ((List.range (n_samples - 1)).map (mcLabel streams)).length :=
          List.count_le_length _ _
      _ = n_samples - 1 := hlen

/-- Witness for C9: two states, three samples, streams `[0, 1, 0]`. -/
theorem hmm_generate_states_no_failure_witness :
    ∃ M, generate_states (fun _ => [0, 1, 0]) 2 3 = some M ∧
    ∃ pos, mcRun (fun _ => [0, 1, 0]) (3 - 1) =
        some (mcLabel (fun _ => [0, 1, 0]) (3 - 1), pos) ∧
      (∑ i ∈ Finset.range 2, pos i = 3 - 1) ∧
      (∀ i, pos i ≤ 3 - 1) ∧
      (∀ t, t < 3 → mcLabel (fun _ => [0, 1, 0]) t < 2) :=
  hmm_generate_states_no_failure (fun _ => [0, 1, 0]) 2 3 (by decide) (by decide)
    (fun _ _ => rfl) (fun _ _ v hv => by simp at hv; omega)

/-! ## Seeded pipeline: determinism and the multi-time-scale composer -/

theorem mkStreamsList_spec (rm : RngModel) (n size : ℕ) (hrng : GoodRng rm n) :
    ∀ (rows : List (List ℚ)) (g : ℕ),
      (mkStreamsList rm g rows n size).1.length = rows.length ∧
      (∀ i, i < rows.length →
        ((mkStreamsList rm g rows n size).1.getD i []).length = size) ∧
      (∀ i, ∀ v ∈ (mkStreamsList rm g rows n size).1.getD i [], v < n) := by
  intro rows
  induction rows with
  | nil =>
    intro g
    refine ⟨rfl, fun i hi => absurd hi (Nat.not_lt_zero i), fun i v hv => ?_⟩
    simp [mkStreamsList] at hv
  | cons r rs ih =>
    intro g
    obtain ⟨ihlen, ihsz, ihval⟩ := ih (rm.choice g n size r).2
    refine ⟨by simp [mkStreamsList, ihlen], ?_, ?_⟩
    · intro i hi
      match i with
      | 0 => exact (hrng g size r).1
      | i + 1 =>
        show ((mkStreamsList rm _ rs n size).1.getD i []).length = size
        exact ihsz i (by simpa using hi)
    · intro i v hv
      match i with
      | 0 => exact (hrng g size r).2 v hv
      | i + 1 => exact ihval i v hv

/-- A `generate_states` call on a constructed object succeeds and has the
prescribed shape, provided `n_states` matches the number of matrix rows. -/
theorem hmmGenerateStatesRM_spec (rm : RngModel) (h : HMMModel) (n_samples : ℕ)
    (hrow : h.trans_prob.length = h.n_states) (hn : 1 ≤ h.n_states)
    (hrng : GoodRng rm h.n_states) :
    ∃ M, (hmmGenerateStatesRM rm h n_samples).1 = some M ∧
      M.length = n_samples ∧ ∀ row ∈ M, row.length = h.n_states := by
  obtain ⟨hlen, hsz, hval⟩ :=
    mkStreamsList_spec rm h.n_states n_samples hrng h.trans_prob h.rngState
  have Hlen : ∀ i, i < h.n_states →
      ((fun i => (mkStreamsList rm h.rngState h.trans_prob h.n_states n_samples).1.getD i [])
        i).length = n_samples :=
    fun i hi => hsz i (by rw [hrow]; exact hi)
  have Hval : ∀ i, i < h.n_states →
      ∀ v ∈ (fun i =>
        (mkStreamsList rm h.rngState h.trans_prob h.n_states n_samples).1.getD i []) i,
        v < h.n_states :=
    fun i _ v hv => hval i v hv
  have hgen : (hmmGenerateStatesRM rm h n_samples).1 =
      some ((List.range n_samples).map fun t =>
        stdBasisRow h.n_states (mcLabel (fun i =>
          (mkStreamsList rm h.rngState h.trans_prob h.n_states n_samples).1.getD i [])
          t)) :=
    generate_states_eq _ h.n_states n_samples hn Hlen Hval
  refine ⟨_, hgen, by simp, ?_⟩
  intro row hrow2
  obtain ⟨t, _, rfl⟩ := List.mem_map.mp hrow2
  exact stdBasisRow_length _ _

/-- C7: two `HMM` instances constructed independently from one identical
configuration (`trans_prob` spec, `stay_prob`, `n_states`) with the same
non-`None` seed produce bit-identical outputs from their first call to
`generate_states(n_samples)`: every draw flows through the private generator
`np.random.default_rng(random_seed)`, a deterministic function of the
seed. -/
theorem hmm_fixed_seed_determinism (rm : RngModel) (tp : TransProbArg)
    (stay : Option ℚ) (ns : Option ℕ) (s : ℤ) (n_samples : ℕ)
    (h1 h2 : HMMModel)
    (hc1 : hmmNew rm tp stay ns (some s) = .ok h1)
    (hc2 : hmmNew rm tp stay ns (some s) = .ok h2) :
    (hmmGenerateStatesRM rm h1 n_samples).1 =
      (hmmGenerateStatesRM rm h2 n_samples).1 := by
  have heq : h1 = h2 := Except.ok.inj (hc1.symm.trans hc2)
  rw [heq]

/-- Witness for C7: the `1 × 1` matrix `[[1]]`, seed `0`, two samples. -/
theorem hmm_fixed_seed_determinism_witness :
    (hmmGenerateStatesRM
        ⟨fun _ => 0, fun g _ size _ => (List.replicate size 0, g + 1)⟩
        ⟨[[1]], 1, 0⟩ 2).1 =
      (hmmGenerateStatesRM
        ⟨fun _ => 0, fun g _ size _ => (List.replicate size 0, g + 1)⟩
        ⟨[[1]], 1, 0⟩ 2).1 :=
  hmm_fixed_seed_determinism
    ⟨fun _ => 0, fun g _ size _ => (List.replicate size 0, g + 1)⟩
    (.arr [[1]]) none none 0 2 ⟨[[1]], 1, 0⟩ ⟨[[1]], 1, 0⟩ (by decide) (by decide)

/-- C8: the `state_time_course` handed to the `MS_MVN` observation model is
the stack `[alpha, gamma]` of the one-hot sequences of two Markov chains
(shape `[2, n_samples, n_states]`): the two chains are built from the same
`trans_prob` spec, `stay_prob` and `n_states` but hold distinct per-chain
generator instances seeded `random_seed + 1` and `random_seed + 2`, and each
stacked sequence is exactly the output that its chain produces on its own —
no other coupling exists between them. -/
theorem ms_hmm_mvn_state_time_course (rm : RngModel) (tp : TransProbArg)
    (stay : Option ℚ) (ns : ℕ) (s : ℤ) (n_samples : ℕ) (m : List (List ℚ))
    (hinit : hmmInitTrans tp stay (some ns) = .ok (.stored m))
    (hm : m.length = ns) (hn : 1 ≤ ns) (hrng : GoodRng rm ns) :
    ∃ ha hg A G,
      hmmNew rm tp stay (some ns) (some (s + 1)) = .ok ha ∧
      hmmNew rm tp stay (some ns) (some (s + 2)) = .ok hg ∧
      ha.trans_prob = m ∧ hg.trans_prob = m ∧
      ha.n_states = ns ∧ hg.n_states = ns ∧
      ha.rngState = rm.init (some (s + 1)) ∧
      hg.rngState = rm.init (some (s + 2)) ∧
      (s + 1 : ℤ) ≠ s + 2 ∧
      msStateTimeCourse rm tp stay ns (some s) n_samples =
        .ok [(hmmGenerateStatesRM rm ha n_samples).1,
             (hmmGenerateStatesRM rm hg n_samples).1] ∧
      (hmmGenerateStatesRM rm ha n_samples).1 = some A ∧
      (hmmGenerateStatesRM rm hg n_samples).1 = some G ∧
      A.length = n_samples ∧ G.length = n_samples ∧
      (∀ row ∈ A, row.length = ns) ∧ (∀ row ∈ G, row.length = ns) := by
  have hna : hmmNew rm tp stay (some ns) (some (s + 1)) =
      .ok ⟨m, m.length, rm.init (some (s + 1))⟩ := by
    rw [hmmNew, hinit]
  have hng : hmmNew rm tp stay (some ns) (some (s + 2)) =
      .ok ⟨m, m.length, rm.init (some (s + 2))⟩ := by
    rw [hmmNew, hinit]
  have hnsm : 1 ≤ m.length := by omega
  have hrngm : GoodRng rm m.length := by rw [hm]; exact hrng
  obtain ⟨A, hA, hAlen, hArows⟩ :=
    hmmGenerateStatesRM_spec rm ⟨m, m.length, rm.init (some (s + 1))⟩ n_samples
      rfl hnsm hrngm
  obtain ⟨G, hG, hGlen, hGrows⟩ :=
    hmmGenerateStatesRM_spec rm ⟨m, m.length, rm.init (some (s + 2))⟩ n_samples
      rfl hnsm hrngm
  refine ⟨_, _, A, G, hna, hng, rfl, rfl, hm, hm, rfl, rfl, by omega, ?_, hA, hG,
    hAlen, hGlen, fun row hr => by rw [← hm]; exact hArows row hr,
    fun row hr => by rw [← hm]; exact hGrows row hr⟩
  rw [msStateTimeCourse]
  simp only [Option.map_some']
  rw [hna, hng]
  rfl

/-- Witness for C8: the `1 × 1` matrix `[[1]]`, seed `0`, two samples. -/
theorem ms_hmm_mvn_state_time_course_witness :
    ∃ (ha hg : HMMModel) (A G : List (List ℕ)),
      hmmNew ⟨fun _ => 0, fun g _ size _ => (List.replicate size 0, g + 1)⟩
          (.arr [[1]]) none (some 1) (some ((0 : ℤ) + 1)) = .ok ha ∧
      hmmNew ⟨fun _ => 0, fun g _ size _ => (List.replicate size 0, g + 1)⟩
          (.arr [[1]]) none (some 1) (some ((0 : ℤ) + 2)) = .ok hg ∧
      ha.trans_prob = [[1]] ∧ hg.trans_prob = [[1]] ∧
      ha.n_states = 1 ∧ hg.n_states = 1 ∧
      ha.rngState =
        RngModel.init ⟨fun _ => 0, fun g _ size _ => (List.replicate size 0, g + 1)⟩
          (some ((0 : ℤ) + 1)) ∧
      hg.rngState =
        RngModel.init ⟨fun _ => 0, fun g _ size _ => (List.replicate size 0, g + 1)⟩
          (some ((0 : ℤ) + 2)) ∧
      ((0 : ℤ) + 1 ≠ (0 : ℤ) + 2) ∧
      msStateTimeCourse ⟨fun _ => 0, fun g _ size _ => (List.replicate size 0, g + 1)⟩
          (.arr [[1]]) none 1 (some 0) 2 =
        .ok [(hmmGenerateStatesRM
                ⟨fun _ => 0, fun g _ size _ => (List.replicate size 0, g + 1)⟩
                ha 2).1,
             (hmmGenerateStatesRM
                ⟨fun _ => 0, fun g _ size _ => (List.replicate size 0, g + 1)⟩
                hg 2).1] ∧
      (hmmGenerateStatesRM
          ⟨fun _ => 0, fun g _ size _ => (List.replicate size 0, g + 1)⟩ ha 2).1
        = some A ∧
      (hmmGenerateStatesRM
          ⟨fun _ => 0, fun g _ size _ => (List.replicate size 0, g + 1)⟩ hg 2).1
        = some G ∧
      A.length = 2 ∧ G.length = 2 ∧
      (∀ row ∈ A, row.length = 1) ∧ (∀ row ∈ G, row.length = 1) :=
  ms_hmm_mvn_state_time_course
    ⟨fun _ => 0, fun g _ size _ => (List.replicate size 0, g + 1)⟩
    (.arr [[1]]) none 1 0 2 [[1]] (by decide) (by decide) (by decide)
    (fun g size p =>
      ⟨List.length_replicate size 0,
       fun v hv => by rw [List.eq_of_mem_replicate hv]; decide⟩)

/-! ## The hierarchical composer -/

theorem getD_set_ne {α : Type} (l : List (Option α)) (i j : ℕ) (a : Option α)
    (h : i ≠ j) : (l.set i a).getD j none = l.getD j none := by
  rw [List.getD_eq_getElem?_getD, List.getD_eq_getElem?_getD, List.getElem?_set_ne h]

theorem writeRows_length (idxs : List ℕ) : ∀ (vals : List (List ℕ))
    (stc : List (Option (List ℕ))), (writeRows stc idxs vals).length = stc.length := by
  induction idxs with
  | nil => intro vals stc; rfl
  | cons x xs ih =>
    intro vals stc
    cases vals with
    | nil => rfl
    | cons v vs =>
      show (writeRows (stc.set x (some v)) xs vs).length = stc.length
      rw [ih vs _, List.length_set]

theorem writeRows_getD_not_mem (idxs : List ℕ) : ∀ (vals : List (List ℕ))
    (stc : List (Option (List ℕ))) (t : ℕ), t ∉ idxs →
    (writeRows stc idxs vals).getD t none = stc.getD t none := by
  induction idxs with
  | nil => intro vals stc t _; rfl
  | cons x xs ih =>
    intro vals stc t ht
    cases vals with
    | nil => rfl
    | cons v vs =>
      have hx : x ≠ t := fun h => ht (h ▸ List.mem_cons_self x xs)
      show (writeRows (stc.set x (some v)) xs vs).getD t none = stc.getD t none
      rw [ih vs _ t fun h => ht (List.mem_cons_of_mem x h), getD_set_ne _ _ _ _ hx]

theorem writeRows_append (xs : List ℕ) : ∀ (ys : List ℕ) (vs ws : List (List ℕ))
    (stc : List (Option (List ℕ))), vs.length = xs.length →
    writeRows stc (xs ++ ys) (vs ++ ws) = writeRows (writeRows stc xs vs) ys ws := by
  induction xs with
  | nil =>
    intro ys vs ws stc h
    have hnil : vs = [] := List.length_eq_zero.mp h
    subst hnil
    rfl
  | cons x xs ih =>
    intro ys vs ws stc h
    cases vs with
    | nil => simp at h
    | cons v vtl =>
      have hlen : vtl.length = xs.length := by simpa using h
      show writeRows (stc.set x (some v)) (xs ++ ys) (vtl ++ ws) = _
      rw [ih ys vtl ws _ hlen]
      rfl

theorem filter_range_length_lt (p : ℕ → Bool) : ∀ N t, t < N → p t →
    ((List.range t).filter p).length < ((List.range N).filter p).length := by
  intro N
  induction N with
  | zero => omega
  | succ N ih =>
    intro t ht hp
    rw [List.range_succ, List.filter_append, List.length_append]
    rcases Nat.lt_or_ge t N with h | h
    · have := ih t h hp
      omega
    · have heq : t = N := by omega
      subst heq
      rw [List.filter_cons_of_pos hp]
      simp

/-- The fancy assignment `stc[idxs] = vals`, where `idxs` is the ascending
list of indices below `N` satisfying `p`: the row written at index `t` is the
one whose rank equals the number of earlier indices satisfying `p`. -/
theorem writeRows_filter_getD (p : ℕ → Bool) (stc : List (Option (List ℕ))) :
    ∀ (N : ℕ) (vals : List (List ℕ)), N ≤ stc.length →
      vals.length = ((List.range N).filter p).length →
      ∀ t, t < N → p t →
      (writeRows stc ((List.range N).filter p) vals).getD t none
        = some (vals.getD (((List.range t).filter p).length) []) := by
  intro N
  induction N with
  | zero => intro vals _ _ t ht; omega
  | succ N ih =>
    intro vals hstc hlenv t ht hp
    have hAle : ((List.range N).filter p).length ≤ N := by
      calc ((List.range N).filter p).length ≤ (List.range N).length :=
            List.length_filter_le _ _
        _ = N := List.length_range N
    have htake : (vals.take ((List.range N).filter p).length).length
        = ((List.range N).filter p).length := by
      rw [List.length_take]
      rw [List.range_succ, List.filter_append, List.length_append] at hlenv
      omega
    have hsplit :
        writeRows stc ((List.range (N + 1)).filter p) vals =
          writeRows
            (writeRows stc ((List.range N).filter p)
              (vals.take ((List.range N).filter p).length))
            (List.filter p [N]) (vals.drop ((List.range N).filter p).length) := by
      conv_lhs => rw [List.range_succ, List.filter_append,
        ← List.take_append_drop ((List.range N).filter p).length vals]
      exact writeRows_append _ _ _ _ _ htake
    rcases Nat.lt_or_ge t N with htN | htN
    · have hnotmem : t ∉ List.filter p [N] := by
        intro hmem
        have := List.mem_of_mem_filter hmem
        rw [List.mem_singleton] at this
        omega
      rw [hsplit, writeRows_getD_not_mem _ _ _ _ hnotmem,
        ih (vals.take ((List.range N).filter p).length) (by omega) htake t htN hp]
      have hcnt : ((List.range t).filter p).length
          < ((List.range N).filter p).length := filter_range_length_lt p N t htN hp
      rw [List.getD_eq_getElem?_getD, List.getElem?_take_of_lt hcnt,
        ← List.getD_eq_getElem?_getD]
    · have heq : t = N := by omega
      subst heq
      have hF : List.filter p [t] = [t] := by rw [List.filter_cons_of_pos hp]; rfl
      have hvlt : ((List.range t).filter p).length < vals.length := by
        rw [List.range_succ, List.filter_append, List.length_append, hF] at hlenv
        simp at hlenv
        omega
      have hdrop : vals.drop ((List.range t).filter p).length =
          vals.get ⟨((List.range t).filter p).length, hvlt⟩ ::
            vals.drop (((List.range t).filter p).length + 1) :=
        List.drop_eq_getElem_cons hvlt
      rw [hsplit, hF, hdrop]
      show ((writeRows stc ((List.range t).filter p)
          (vals.take ((List.range t).filter p).length)).set t
            (some (vals.get ⟨((List.range t).filter p).length, hvlt⟩))).getD t none = _
      have hlt : t < (writeRows stc ((List.range t).filter p)
          (vals.take ((List.range t).filter p).length)).length := by
        rw [writeRows_length]
        omega
      rw [List.getD_eq_getElem?_getD, List.getElem?_set_self hlt]
      rw [List.getD_eq_getElem?_getD, List.getElem?_eq_getElem hvlt]
      rfl

theorem stdBasisRow_getD (K k i : ℕ) :
    (stdBasisRow K k).getD i 0 = if i < K ∧ i = k then 1 else 0 := by
  rcases Nat.lt_or_ge i K with h | h
  · rw [stdBasisRow, getD_map_range _ _ h]
    by_cases hik : i = k
    · subst hik
      simp [h]
    · simp [hik]
  · have hout : (stdBasisRow K k).length ≤ i := by rw [stdBasisRow_length]; exact h
    rw [List.getD_eq_getElem?_getD, List.getElem?_eq_none hout]
    have : ¬ (i < K ∧ i = k) := fun hc => absurd hc.1 (Nat.not_lt.mpr h)
    simp [this]

/-- `np.argwhere(top_level_stc[:, i] == 1)` on a one-hot top-level sequence
with labels `tl`: exactly the ascending list of samples where `tl` equals
`i`. -/
theorem activeIndices_eq (topStc : List (List ℕ)) (tl : ℕ → ℕ) (K n_samples : ℕ)
    (hlen : topStc.length = n_samples)
    (htl : ∀ t, t < n_samples → tl t < K ∧ topStc.getD t [] = stdBasisRow K (tl t))
    (i : ℕ) :
    activeIndices topStc i = (List.range n_samples).filter fun t => tl t == i := by
  rw [activeIndices, hlen]
  apply List.filter_congr
  intro t ht
  rw [List.mem_range] at ht
  obtain ⟨hk, hrow⟩ := htl t ht
  rw [hrow, stdBasisRow_getD]
  by_cases hti : tl t = i
  · subst hti
    simp [hk]
  · have hcond : ¬ (i < K ∧ i = tl t) := fun hc => hti hc.2.symm
    simp [hcond, hti]

/-- The loop of `HierarchicalHMM_MVN.generate_states` over any duplicate-free
list of bottom-chain indices: it never fails, preserves the row count, and
the row at sample `t` ends up equal to row `r` of chain `tl t`'s full-length
output, where `r` is the number of earlier samples whose top-level label is
also `tl t`; rows whose label is not in the list keep their previous
value. -/
theorem hier_foldlM_spec (n_samples K : ℕ) (topStc : List (List ℕ)) (tl : ℕ → ℕ)
    (B : ℕ → List (List ℕ)) (bottomGen : ℕ → ℕ → Option (List (List ℕ)))
    (hlen : topStc.length = n_samples)
    (htl : ∀ t, t < n_samples → tl t < K ∧ topStc.getD t [] = stdBasisRow K (tl t))
    (hB : ∀ i, i < K → bottomGen i n_samples = some (B i) ∧ (B i).length = n_samples) :
    ∀ (idxList : List ℕ), idxList.Nodup → (∀ i ∈ idxList, i < K) →
      ∀ (stc0 : List (Option (List ℕ))), stc0.length = n_samples →
      ∃ stcF,
        idxList.foldlM (hierStep n_samples topStc bottomGen) stc0 = some stcF ∧
        stcF.length = n_samples ∧
        ∀ t, t < n_samples →
          stcF.getD t none =
            if tl t ∈ idxList then
              some ((B (tl t)).getD
                (((List.range t).filter fun u => tl u == tl t).length) [])
            else stc0.getD t none := by
  intro idxList
  induction idxList with
  | nil =>
    intro _ _ stc0 h0
    exact ⟨stc0, rfl, h0, fun t ht => by simp⟩
  | cons i is ih =>
    intro hnd hmem stc0 h0
    have hiK : i < K := hmem i (List.mem_cons_self i is)
    obtain ⟨hbg, hblen⟩ := hB i hiK
    have hact : activeIndices topStc i =
        (List.range n_samples).filter fun u => tl u == i :=
      activeIndices_eq topStc tl K n_samples hlen htl i
    have hstep : hierStep n_samples topStc bottomGen stc0 i =
        some (writeRows stc0 ((List.range n_samples).filter fun u => tl u == i)
          ((B i).take ((List.range n_samples).filter fun u => tl u == i).length)) := by
      simp [hierStep, hbg, hact]
    set stc1 := writeRows stc0 ((List.range n_samples).filter fun u => tl u == i)
      ((B i).take ((List.range n_samples).filter fun u => tl u == i).length)
      with hstc1
    have h1len : stc1.length = n_samples := by rw [hstc1, writeRows_length]; exact h0
    obtain ⟨stcF, hfold, hFlen, hFval⟩ :=
      ih (List.nodup_cons.mp hnd).2 (fun j hj => hmem j (List.mem_cons_of_mem i hj))
        stc1 h1len
    refine ⟨stcF, ?_, hFlen, ?_⟩
    · rw [List.foldlM_cons, hstep]
      exact hfold
    · intro t ht
      by_cases hti : tl t = i
      · have hnotin : tl t ∉ is := by rw [hti]; exact (List.nodup_cons.mp hnd).1
        rw [hFval t ht, if_neg hnotin,
          if_pos (by rw [hti]; exact List.mem_cons_self i is)]
        have hp : (fun u => tl u == i) t = true := by simp [hti]
        have hfle : ((List.range n_samples).filter fun u => tl u == i).length
            ≤ n_samples := by
          calc ((List.range n_samples).filter fun u => tl u == i).length
              ≤ (List.range n_samples).length := List.length_filter_le _ _
            _ = n_samples := List.length_range n_samples
        have hvlen :
            ((B i).take ((List.range n_samples).filter fun u => tl u == i).length).length
              = ((List.range n_samples).filter fun u => tl u == i).length := by
          rw [List.length_take, hblen]
          exact Nat.min_eq_left hfle
        rw [hstc1, writeRows_filter_getD _ _ n_samples _ (by omega) hvlen t ht hp]
        have hcnt : ((List.range t).filter fun u => tl u == i).length
            < ((List.range n_samples).filter fun u => tl u == i).length :=
          filter_range_length_lt _ n_samples t ht hp
        rw [List.getD_eq_getElem?_getD, List.getElem?_take_of_lt hcnt,
          ← List.getD_eq_getElem?_getD, hti]
      · have hnotact : t ∉ (List.range n_samples).filter fun u => tl u == i := by
          intro hmem2
          have hpt := List.of_mem_filter hmem2
          simp at hpt
          exact hti hpt
        have hkeep : stc1.getD t none = stc0.getD t none := by
          rw [hstc1, writeRows_getD_not_mem _ _ _ _ hnotact]
        by_cases htin : tl t ∈ is
        · rw [hFval t ht, if_pos htin, if_pos (List.mem_cons_of_mem i htin)]
        · have hncons : tl t ∉ i :: is := by
            intro hc
            rcases List.mem_cons.mp hc with h | h
            · exact hti h
            · exact htin h
          rw [hFval t ht, if_neg htin, if_neg hncons, hkeep]

/-- C2: for every `HierarchicalHMM_MVN` (any top-level generator producing a
one-hot sequence over the `K` bottom chains) and every `n_samples`,
`generate_states` returns exactly `n_samples` rows, and the composite row at
each sample `t` equals row `r` of bottom chain `tl t`'s own FULL-length
(`n_samples`) output, where `tl t` is the top-level label active at `t` and
`r` is the rank of `t` among the samples at which that label is active; each
bottom chain is asked for a full `n_samples`-length sequence and only its
first `len(time_points_active)` rows are used. -/
theorem hierarchical_generate_states_spec (n_samples K : ℕ)
    (topGen : ℕ → Option (List (List ℕ)))
    (bottomGen : ℕ → ℕ → Option (List (List ℕ)))
    (topStc : List (List ℕ)) (tl : ℕ → ℕ) (B : ℕ → List (List ℕ))
    (htop : topGen n_samples = some topStc)
    (hlen : topStc.length = n_samples)
    (htl : ∀ t, t < n_samples → tl t < K ∧ topStc.getD t [] = stdBasisRow K (tl t))
    (hB : ∀ i, i < K → bottomGen i n_samples = some (B i) ∧ (B i).length = n_samples) :
    ∃ stc, hierGenerateStates n_samples K topGen bottomGen = some stc ∧
      stc.length = n_samples ∧
      ∀ t, t < n_samples →
        stc.getD t none =
          some ((B (tl t)).getD
            (((List.range t).filter fun u => tl u == tl t).length) []) := by
  obtain ⟨stcF, hfold, hFlen, hFval⟩ :=
    hier_foldlM_spec n_samples K topStc tl B bottomGen hlen htl hB
      (List.range K) (List.nodup_range K) (fun i hi => List.mem_range.mp hi)
      (List.replicate n_samples none) (List.length_replicate _ _)
  refine ⟨stcF, ?_, hFlen, ?_⟩
  · rw [hierGenerateStates, htop]
    exact hfold
  · intro t ht
    rw [hFval t ht, if_pos (List.mem_range.mpr (htl t ht).1)]

/-- Witness for C2: four samples, two bottom chains, alternating top-level
labels. -/
theorem hierarchical_generate_states_spec_witness :
    ∃ stc,
      hierGenerateStates 4 2 (fun _ => some [[1, 0], [0, 1], [1, 0], [0, 1]])
          (fun i len => some (List.replicate len [i])) = some stc ∧
      stc.length = 4 ∧
      ∀ t, t < 4 →
        stc.getD t none =
          some (((fun i => List.replicate 4 [i]) ((fun t => t % 2) t)).getD
            (((List.range t).filter fun u =>
              (fun t => t % 2) u == (fun t => t % 2) t).length) []) :=
  hierarchical_generate_states_spec 4 2
    (fun _ => some [[1, 0], [0, 1], [1, 0], [0, 1]])
    (fun i len => some (List.replicate len [i]))
    [[1, 0], [0, 1], [1, 0], [0, 1]] (fun t => t % 2) (fun i => List.replicate 4 [i])
    rfl rfl
    (fun t ht => by
      interval_cases t <;> exact ⟨by decide, by decide⟩)
    (fun i _ => ⟨rfl, rfl⟩)

end OslDynamics
